import Mathlib

/-!
Formal model of `hex.py` (smittytone/Hex, version 1.2.0).

The Python script converts the raw bytes of files into escaped hex string
literals (`\x01\xAB...`) and keeps a per-user preference file listing file
extensions to skip during directory scans.  Every definition below is a
direct shallow embedding of a function of `hex.py`; the theorems settle the
frozen claims about the script.

Modelling conventions:
* Python byte values are `Nat` values below 256.
* The preference file is modelled by its contents, a `String`; an absent
  file is `Option.none`.
* Python functions that can raise an uncaught exception on some inputs are
  modelled with an explicit flag or an `Option` result for those inputs.
-/

namespace HexPy

/-- One uppercase hexadecimal digit, as produced by Python's `"%X"` format:
`0`–`9` for values below 10, `A`–`F` for 10–15. -/
def hexDigit (n : Nat) : Char :=
  if n < 10 then Char.ofNat (48 + n) else Char.ofNat (55 + n)

/-- Uppercase hexadecimal digit string of `n` (no padding), fuel-driven so
that it is computable by the kernel.  `fuel` strictly exceeds the number of
divisions by 16 that are needed whenever `n ≤ fuel`, so `natToHex` below
always has enough fuel. -/
def natToHexFuel : Nat → Nat → List Char
  | 0, n => [hexDigit n]
  | fuel + 1, n =>
    if n < 16 then [hexDigit n]
    else natToHexFuel fuel (n / 16) ++ [hexDigit (n % 16)]

/-- The digits of `n` in uppercase hexadecimal, most significant first. -/
def natToHex (n : Nat) : List Char :=
  natToHexFuel n n

/-- Embeds `int_to_hex_str` (hex.py lines 232-248): Python
`("%0" + str(length) + "X") % value` after rounding `length` up to an even
number.  The `%0NX` format left-pads with `0` to width `N` and uses more
digits when the value needs them.  The Python default for `length` is 2;
call sites pass 2 explicitly here. -/
def int_to_hex_str (value : Nat) (length : Nat) : String :=
  let length2 := if length % 2 ≠ 0 then length + 1 else length
  let digits := natToHex value
  String.mk (List.replicate (length2 - digits.length) '0' ++ digits)

/-- `c` is one of the sixteen uppercase hexadecimal digit characters. -/
def is_upper_hex_digit (c : Char) : Bool :=
  (decide ('0' ≤ c) && decide (c ≤ '9')) || (decide ('A' ≤ c) && decide (c ≤ 'F'))

/-- Embeds the encoding loop of `process_file` (hex.py lines 80-82):
`output += ("\\x" + int_to_hex_str(byte_value))` for each byte in order. -/
def encode_bytes (file_bytes : List Nat) : String :=
  file_bytes.foldl (fun output b => output ++ "\\x" ++ int_to_hex_str b 2) ""

/-- Python `str.split(sep)` for a single-character separator, over the
character list of the string.  `split_on_char sep cs` always returns at
least one (possibly empty) part; parts do not contain `sep`. -/
def split_on_char (sep : Char) : List Char → List (List Char)
  | [] => [[]]
  | c :: rest =>
    let r := split_on_char sep rest
    if c = sep then [] :: r else (c :: r.headI) :: r.tail

/-- Python `s.split(sep)` for a single-character separator. -/
def py_split (sep : Char) (s : String) : List String :=
  (split_on_char sep s.data).map String.mk

/-- Python `parts[len(parts) - 1]`: the last element of a nonempty list
(`default` on the empty list, which never occurs at call sites because
`split_on_char` never returns `[]`). -/
def last_elem {α : Type} [Inhabited α] : List α → α
  | [] => default
  | [a] => a
  | _ :: b :: t => last_elem (b :: t)

/-- Body of `check_extension` over the character list of the file name. -/
def check_extension_chars (ignored : List String) (cs : List Char) : Option Bool :=
  match cs with
  | [] => none
  | c :: _ =>
    some (if c = '.' then false
      else
        let parts := (split_on_char '.' cs).map String.mk
        if parts.length > 1 then
          (if last_elem parts ∈ ignored then false else true)
        else false)

/-- Embeds `check_extension` (hex.py lines 206-229).  Hidden files (leading
`.`) and names without a `.` are rejected; otherwise the text after the
final `.` is looked up in `ignored` by exact string equality.  The result is
`none` for the empty name, where Python's `file_path[0]` would raise
`IndexError` (the script never passes an empty name). -/
def check_extension (ignored : List String) (file_path : String) : Option Bool :=
  check_extension_chars ignored file_path.data

/-- ASCII characters stripped by Python's `str.rstrip()` (the characters of
the ASCII range for which `str.isspace()` holds). -/
def py_space (c : Char) : Bool :=
  c == ' ' || c == '\t' || c == '\n' || c == '\x0B' || c == '\x0C' || c == '\r' ||
    c == '\x1C' || c == '\x1D' || c == '\x1E' || c == '\x1F'

/-- Python `line.rstrip()` on the character list of a line (modelled for
ASCII contents). -/
def rstrip (cs : List Char) : List Char :=
  (cs.reverse.dropWhile py_space).reverse

/-- The lines produced by Python's `for line in file` iteration, with each
line's trailing newline still removed by the subsequent `rstrip` (this
function keeps the split faithful: a trailing segment after the last
newline is a line only when it is nonempty). -/
def file_lines : List Char → List (List Char)
  | [] => []
  | c :: rest =>
    let r := file_lines rest
    if c = '\n' then [] :: r
    else if r.isEmpty then [[c]] else (c :: r.headI) :: r.tail

/-- The built-in default extension list `ignored` (hex.py line 46). -/
def ignored_default : List String :=
  ["pxm", "py", "txt", "text", "html", "md", "markdown"]

/-- Embeds the preference-file write loop of `check_prefs` (hex.py line
147): `for item in ignored: prefs_file.write(item + "\n")`. -/
def write_prefs (l : List String) : String :=
  l.foldl (fun acc s => acc ++ s ++ "\n") ""

/-- Embeds the preference-file read loop of `check_prefs` (hex.py lines
152-154): `for line in prefs_file: ignored.append(line.rstrip())`. -/
def read_prefs (contents : String) : List String :=
  (file_lines contents.data).map (fun line => String.mk (rstrip line))

/-- A stored extension string whose preference-file line is read back
unchanged: ASCII contents, no newline anywhere, no trailing whitespace.
(The ASCII bound keeps `rstrip` a faithful model of Python's `rstrip`,
which also strips some non-ASCII Unicode whitespace.) -/
def pref_wf (s : String) : Prop :=
  (∀ c ∈ s.data, c.toNat < 128) ∧ '\n' ∉ s.data ∧ rstrip s.data = s.data

instance pref_wf_decidable (s : String) : Decidable (pref_wf s) :=
  inferInstanceAs
    (Decidable ((∀ c ∈ s.data, c.toNat < 128) ∧ '\n' ∉ s.data ∧ rstrip s.data = s.data))

/-- Embeds `check_prefs` (hex.py lines 124-156) as a pure function of the
preference-file state.  `disk` is the contents of `~/.config/hexpy/ignored`
when the file exists, `none` otherwise; `ignored` is the in-memory global.
The result is the new in-memory list together with the file contents after
the call (the file always exists afterwards). -/
def check_prefs (disk : Option String) (ignored : List String) : List String × String :=
  match disk with
  | none => (ignored, write_prefs ignored)
  | some contents => (read_prefs contents, contents)

/-- Embeds the flattening loop of `update_ignored` (hex.py lines 172-177):
each token may be a comma-joined sub-list, e.g. `["nut", "rtf,pdf"]`
becomes `["nut", "rtf", "pdf"]`. -/
def flatten_extensions (extensions : List String) : List String :=
  (extensions.map (fun extension => py_split ',' extension)).flatten

/-- One iteration of the membership loop of `update_ignored` (hex.py lines
181-190): state is the current `ignored` list and the running `count`. -/
def update_step (should_add : Bool) (st : List String × Nat) (extension : String) :
    List String × Nat :=
  let got : Bool := decide (extension ∈ st.1)
  if got != should_add then
    if should_add then (st.1 ++ [extension], st.2 + 1)
    else (st.1.erase extension, st.2 + 1)
  else st

/-- Embeds the in-memory part of `update_ignored` (hex.py lines 159-195):
returns the updated list and the count of extensions actually changed. -/
def update_ignored (ignored : List String) (extensions : List String) (should_add : Bool) :
    List String × Nat :=
  (flatten_extensions extensions).foldl (update_step should_add) (ignored, 0)

/-- Embeds the persistence tail of `update_ignored` (hex.py lines 198-203):
`os.remove` deletes the preference file and `check_prefs()` then recreates
it from the updated in-memory list.  Returns the update result together
with the file contents after the rewrite. -/
def update_ignored_save (mem : List String) (exts : List String) (add : Bool) :
    (List String × Nat) × String :=
  let r := update_ignored mem exts add
  (r, (check_prefs none r.1).2)

/-- The state of the file system at one path, as seen by `process_file`. -/
inductive FsEntry
  | absent
  | file (bytes : List Nat)
  | directory
deriving DecidableEq

/-- Embeds `os.path.exists` (hex.py line 66): true for regular files and
also for directories. -/
def path_exists : FsEntry → Bool
  | .absent => false
  | .file _ => true
  | .directory => true

/-- Embeds `write_info` (hex.py lines 251-259): the message reaches stderr
only when verbose mode is on. -/
def write_info (verbose : Bool) (text : String) : List String :=
  if verbose then [text] else []

/-- Observable outcome of one `process_file` call: the line printed to
stdout (if any), the lines written to stderr, and whether an uncaught
exception escaped the call. -/
structure FileResult where
  stdout : Option String
  stderrLines : List String
  raised : Bool
deriving DecidableEq

/-- Embeds `process_file` (hex.py lines 54-88).  A nonexistent path and an
empty file are reported and skipped with no stdout output.  A directory
passes the `os.path.exists` test, so `open(path, 'rb')` is reached and
raises an uncaught `IsADirectoryError`: that case is modelled with
`raised = true`. -/
def process_file (verbose : Bool) (path : String) (entry : FsEntry) : FileResult :=
  let info1 := write_info verbose ("Processing file: " ++ path)
  if path_exists entry then
    match entry with
    | .absent => ⟨none, info1, false⟩
    | .directory => ⟨none, info1, true⟩
    | .file bytes =>
      match bytes with
      | [] =>
        ⟨none, info1 ++ write_info verbose ("File " ++ path ++ " has no bytes -- skipping"),
          false⟩
      | b :: bs =>
        ⟨some (encode_bytes (b :: bs)),
          info1 ++ write_info verbose ("File length: " ++ toString (b :: bs).length ++ " bytes"),
          false⟩
  else
    ⟨none, info1 ++ write_info verbose ("File " ++ path ++ " cannot be read -- skipping"),
      false⟩

/-- Outcome of the option-scanning loop of the main entry point.
`crashed` is the uncaught `IndexError` raised by `value_arg[0]` (hex.py
line 333) or `cmd_arg[0]` (line 356) when the scanned token is the empty
string: the program aborts with a traceback. -/
inductive ParseOutcome
  | helpExit
  | usageError (msg : String)
  | crashed
  | proceed (verbose : Bool) (addPrefs removePrefs : List String) (args : List String)
deriving DecidableEq

/-- Embeds the option-scanning loop of the main entry point (hex.py lines
319-364) on `sys.argv[1:]`.  `gn` is `get_next_arg`, `ca` is `cmd_arg`,
`vb` is `verbose`, `ad`/`rm` accumulate `add_prefs`/`remove_prefs`, and
`pr` is the already-scanned part of `sys.argv[1:]` with each consumed
option parameter replaced by `"?"` (Python mutates `args[i] = "?"`; the
replaced marker falls through every branch when it is re-read).  An
empty-string token fails every membership test and then raises an uncaught
`IndexError` at the `[0]` subscript (`value_arg[0]` line 333 in the
parameter position, `cmd_arg[0]` line 356 otherwise): `.crashed`. -/
def parse_loop : List String → Bool → String → Bool → List String → List String →
    List String → ParseOutcome
  | [], gn, ca, vb, ad, rm, pr =>
    if gn then .usageError ("missing parameter for option: " ++ ca)
    else .proceed vb ad rm pr
  | a :: rest, gn, ca, vb, ad, rm, pr =>
    if gn then
      if a = "" then .crashed
      else if a.front = '-' then
        .usageError ("missing parameter for option: " ++ ca ++ ": " ++ a)
      else if ca = "-a" ∨ ca = "--add" then
        parse_loop rest false ca vb (ad ++ [a]) rm (pr ++ ["?"])
      else if ca = "-r" ∨ ca = "--remove" then
        parse_loop rest false ca vb ad (rm ++ [a]) (pr ++ ["?"])
      else
        parse_loop rest false ca vb ad rm (pr ++ [a])
    else if a = "-h" ∨ a = "--help" then .helpExit
    else if a = "-v" ∨ a = "--verbose" then
      parse_loop rest false a true ad rm (pr ++ [a])
    else if a = "-a" ∨ a = "--add" ∨ a = "-r" ∨ a = "--remove" then
      parse_loop rest true a vb ad rm (pr ++ [a])
    else if a = "" then .crashed
    else if a.front = '-' then .usageError ("unrecognized option: " ++ a)
    else parse_loop rest false a vb ad rm (pr ++ [a])

/-- Observable outcome of one run of the script.  `helpList` is the
ignored-extension list rendered into the help text when help was shown;
`mem` is the in-memory `ignored` list after preference handling; `disk` is
the preference-file contents at exit; `files` is the list of explicit paths
handed to `process_file`; `scanDir` records whether the working directory
was scanned instead; `raised` records an uncaught exception aborting the
run with a traceback. -/
structure MainResult where
  exitCode : Nat
  helpList : Option (List String)
  mem : List String
  disk : Option String
  files : List String
  scanDir : Bool
  raised : Bool
deriving DecidableEq

/-- Embeds the main entry point (hex.py lines 315-400) as a pure function
of `sys.argv[1:]` and the preference-file state.  `show_help` runs inside
the option loop, before `check_prefs()` is ever called, so the help text
renders the built-in default list.  When the option loop raises (empty
string argument), the run aborts before preferences or files are touched.
After the loop, preferences are loaded, add/remove mutations applied, and
the remaining tokens of the mutated `sys.argv` whose first character is
neither `-` nor `?` are processed as files (hex.py line 382; the tokens
reaching this pass are nonempty, every empty token having crashed the
loop); when there are none the working directory is scanned. -/
def main_model (argtail : List String) (disk0 : Option String) : MainResult :=
  match argtail with
  | [] =>
    let lp := check_prefs disk0 ignored_default
    ⟨0, none, lp.1, some lp.2, [], true, false⟩
  | a :: rest =>
    match parse_loop (a :: rest) false "" false [] [] [] with
    | .helpExit => ⟨0, some ignored_default, ignored_default, disk0, [], false, false⟩
    | .usageError _ => ⟨1, none, ignored_default, disk0, [], false, false⟩
    | .crashed => ⟨1, none, ignored_default, disk0, [], false, true⟩
    | .proceed _ adds removes processed =>
      let lp := check_prefs disk0 ignored_default
      let st1 :=
        if adds.isEmpty then (lp.1, lp.2)
        else
          let u := update_ignored_save lp.1 adds true
          (u.1.1, u.2)
      let st2 :=
        if removes.isEmpty then st1
        else
          let u := update_ignored_save st1.1 removes false
          (u.1.1, u.2)
      let fl := processed.filter (fun t => t.front != '-' && t.front != '?')
      ⟨0, none, st2.1, some st2.2, fl, fl.isEmpty, false⟩

theorem encode_bytes_data_aux (bs : List Nat) :
    ∀ acc : String,
      (bs.foldl (fun output b => output ++ "\\x" ++ int_to_hex_str b 2) acc).data
        = acc.data ++ (bs.map (fun b => '\\' :: 'x' :: (int_to_hex_str b 2).data)).flatten := by
  induction bs with
  | nil => intro acc; simp
  | cons b bs ih =>
    intro acc
    simp only [List.foldl_cons, List.map_cons, List.flatten_cons]
    rw [ih]
    simp [String.data_append]

set_option maxRecDepth 4000 in
/-- C1: for every byte value 0-255, the encoder's per-byte rendering is
exactly two uppercase hexadecimal digits, zero-padded below 16; the output
of `encode_bytes` is the concatenation of the per-byte tokens
`\x` + two digits in input order with no separators; and the 3-byte input
`[0x01, 0xAB, 0xFF]` encodes to exactly `\x01\xAB\xFF`. -/
theorem byte_encoder_spec :
    (∀ b : Nat, b < 256 →
      (int_to_hex_str b 2).length = 2
      ∧ (∀ c ∈ (int_to_hex_str b 2).data, is_upper_hex_digit c = true)
      ∧ (b < 16 → (int_to_hex_str b 2).data.head? = some '0'))
    ∧ (∀ bs : List Nat, (encode_bytes bs).data
        = (bs.map (fun b => '\\' :: 'x' :: (int_to_hex_str b 2).data)).flatten)
    ∧ encode_bytes [1, 171, 255] = "\\x01\\xAB\\xFF" := by
  refine ⟨by decide, ?_, by decide⟩
  intro bs
  simpa using encode_bytes_data_aux bs ""

theorem byte_encoder_spec_witness :
    (int_to_hex_str 10 2).length = 2 ∧ (int_to_hex_str 10 2).data.head? = some '0' :=
  ⟨(byte_encoder_spec.1 10 (by decide)).1, (byte_encoder_spec.1 10 (by decide)).2.2 (by decide)⟩

/-- C6: a nonexistent path and a zero-length file both produce no stdout
output, emit a skip diagnostic, and return normally so that processing can
move on to the next file. -/
theorem process_file_skip_spec :
    ∀ (path : String) (v : Bool),
      ((process_file v path .absent).stdout = none
        ∧ (process_file v path .absent).raised = false
        ∧ (process_file v path (.file [])).stdout = none
        ∧ (process_file v path (.file [])).raised = false)
      ∧ ("File " ++ path ++ " cannot be read -- skipping")
          ∈ (process_file true path .absent).stderrLines
      ∧ ("File " ++ path ++ " has no bytes -- skipping")
          ∈ (process_file true path (.file [])).stderrLines := by
  intro path v
  refine ⟨⟨?_, ?_, ?_, ?_⟩, ?_, ?_⟩ <;>
    simp [process_file, path_exists, write_info]

/-- C7 (as the code actually behaves): a directory path passes the
`os.path.exists` check, so `open(path, 'rb')` is reached and the resulting
`IsADirectoryError` escapes `process_file` uncaught, aborting the run
instead of skipping to the next file. -/
theorem process_file_directory_raises :
    path_exists .directory = true
    ∧ (process_file true "somedir" .directory).raised = true
    ∧ (process_file true "somedir" .directory).stdout = none := by
  refine ⟨rfl, rfl, rfl⟩

theorem split_on_char_ne_nil (sep : Char) (cs : List Char) : split_on_char sep cs ≠ [] := by
  cases cs with
  | nil => simp [split_on_char]
  | cons c rest => by_cases hc : c = sep <;> simp [split_on_char, hc]

theorem split_on_char_not_mem (sep : Char) (cs : List Char) (h : sep ∉ cs) :
    split_on_char sep cs = [cs] := by
  induction cs with
  | nil => rfl
  | cons c rest ih =>
    have hc : c ≠ sep := fun e => h (e ▸ List.mem_cons_self c rest)
    have h2 : sep ∉ rest := fun m => h (List.mem_cons_of_mem _ m)
    simp [split_on_char, hc, ih h2]

theorem split_on_char_length_two (sep : Char) (cs : List Char) (h : sep ∈ cs) :
    2 ≤ (split_on_char sep cs).length := by
  induction cs with
  | nil => cases h
  | cons c rest ih =>
    rw [show split_on_char sep (c :: rest)
        = if c = sep then [] :: split_on_char sep rest
          else (c :: (split_on_char sep rest).headI) :: (split_on_char sep rest).tail from rfl]
    by_cases hc : c = sep
    · rw [if_pos hc]
      have := List.length_pos.2 (split_on_char_ne_nil sep rest)
      simp only [List.length_cons]
      omega
    · rw [if_neg hc]
      have hr : sep ∈ rest := by
        rcases List.mem_cons.1 h with h1 | h2
        · exact absurd h1.symm hc
        · exact h2
      have h2 := ih hr
      rcases hs : split_on_char sep rest with _ | ⟨hh, tt⟩
      · exact absurd hs (split_on_char_ne_nil sep rest)
      · rw [hs] at h2
        show 2 ≤ ((c :: hh) :: tt).length
        simp only [List.length_cons] at h2 ⊢
        omega

theorem last_elem_cons {α : Type} [Inhabited α] (a : α) (l : List α) (h : l ≠ []) :
    last_elem (a :: l) = last_elem l := by
  cases l with
  | nil => exact absurd rfl h
  | cons b t => rfl

theorem last_elem_map {α β : Type} [Inhabited α] [Inhabited β] (f : α → β) :
    ∀ l : List α, l ≠ [] → last_elem (l.map f) = f (last_elem l)
  | [a], _ => rfl
  | a :: b :: t, _ => by
    simp only [List.map_cons]
    rw [last_elem_cons (f a) _ (by simp), last_elem_cons a _ (by simp)]
    exact last_elem_map f (b :: t) (by simp)

theorem split_last_concat (sep : Char) :
    ∀ l₁ l₂ : List Char, sep ∉ l₂ →
      last_elem (split_on_char sep (l₁ ++ sep :: l₂)) = l₂ := by
  intro l₁
  induction l₁ with
  | nil =>
    intro l₂ h
    show last_elem (split_on_char sep (sep :: l₂)) = l₂
    rw [show split_on_char sep (sep :: l₂)
        = if sep = sep then [] :: split_on_char sep l₂
          else (sep :: (split_on_char sep l₂).headI) :: (split_on_char sep l₂).tail from rfl]
    rw [if_pos rfl, split_on_char_not_mem sep l₂ h]
    rfl
  | cons x xs ih =>
    intro l₂ h
    have hmem : sep ∈ xs ++ sep :: l₂ := List.mem_append_right _ (List.mem_cons_self _ _)
    have hlast := ih l₂ h
    have hlen := split_on_char_length_two sep _ hmem
    rcases hs : split_on_char sep (xs ++ sep :: l₂) with _ | ⟨hh, tt⟩
    · exact absurd hs (split_on_char_ne_nil _ _)
    · rw [hs] at hlen hlast
      have htt : tt ≠ [] := by
        intro e
        rw [e] at hlen
        simp at hlen
      show last_elem (split_on_char sep (x :: (xs ++ sep :: l₂))) = l₂
      rw [show split_on_char sep (x :: (xs ++ sep :: l₂))
          = if x = sep then [] :: split_on_char sep (xs ++ sep :: l₂)
            else (x :: (split_on_char sep (xs ++ sep :: l₂)).headI)
              :: (split_on_char sep (xs ++ sep :: l₂)).tail from rfl]
      rw [hs]
      by_cases hc : x = sep
      · rw [if_pos hc, last_elem_cons _ _ (by simp)]
        exact hlast
      · rw [if_neg hc]
        show last_elem ((x :: hh) :: tt) = l₂
        rw [last_elem_cons _ _ htt]
        rw [last_elem_cons hh tt htt] at hlast
        exact hlast

/-- C2: `check_extension` rejects every name that begins with `.` whatever
the extension set holds; rejects every nonempty name with no `.`; and for a
name with an extension returns `true` exactly when the text after the final
`.` is not in the extension set, by exact case-sensitive comparison. -/
theorem check_extension_spec (ignored : List String) (name : String) :
    (name.data.head? = some '.' → check_extension ignored name = some false)
    ∧ (name ≠ "" → name.data.head? ≠ some '.' → '.' ∉ name.data →
        check_extension ignored name = some false)
    ∧ (∀ (c : Char) (pre suf : List Char),
        name.data = c :: (pre ++ '.' :: suf) → c ≠ '.' → '.' ∉ suf →
        (check_extension ignored name = some true ↔ String.mk suf ∉ ignored)) := by
  refine ⟨?_, ?_, ?_⟩
  · intro h
    unfold check_extension
    rcases hd : name.data with _ | ⟨c, rest⟩
    · rw [hd] at h; simp at h
    · rw [hd] at h
      simp only [List.head?_cons, Option.some.injEq] at h
      simp [check_extension_chars, h]
  · intro hne hh hdot
    unfold check_extension
    rcases hd : name.data with _ | ⟨c, rest⟩
    · exact absurd (String.ext (hd.trans rfl)) hne
    · rw [hd] at hh hdot
      have hc : c ≠ '.' := fun e => hh (by simp [e])
      simp [check_extension_chars, hc, split_on_char_not_mem '.' (c :: rest) hdot]
  · intro c pre suf hd hc hs
    unfold check_extension
    rw [hd]
    have hform : c :: (pre ++ '.' :: suf) = (c :: pre) ++ '.' :: suf := by simp
    have hmem : ('.' : Char) ∈ c :: (pre ++ '.' :: suf) :=
      List.mem_cons_of_mem _ (List.mem_append_right _ (List.mem_cons_self _ _))
    have hlen := split_on_char_length_two '.' _ hmem
    have hlast : last_elem (split_on_char '.' (c :: (pre ++ '.' :: suf))) = suf := by
      rw [hform]
      exact split_last_concat '.' (c :: pre) suf hs
    have hne2 : split_on_char '.' (c :: (pre ++ '.' :: suf)) ≠ [] :=
      split_on_char_ne_nil _ _
    simp only [check_extension_chars, if_neg hc]
    rw [last_elem_map String.mk _ hne2, hlast]
    have hgt : ((split_on_char '.' (c :: (pre ++ '.' :: suf))).map String.mk).length > 1 := by
      rw [List.length_map]
      omega
    rw [if_pos hgt]
    by_cases hm : String.mk suf ∈ ignored <;> simp [hm]

theorem check_extension_spec_witness :
    check_extension [] ".bashrc" = some false
    ∧ check_extension ["md"] "notes.txt" = some true := by
  constructor
  · exact (check_extension_spec [] ".bashrc").1 (by decide)
  · exact ((check_extension_spec ["md"] "notes.txt").2.2 'n' "otes".data "txt".data
      (by decide) (by decide) (by decide)).mpr (by decide)

theorem update_step_add_mem (st : List String × Nat) (a : String) (h : a ∈ st.1) :
    update_step true st a = st := by
  simp [update_step, h]

theorem update_step_add_new (st : List String × Nat) (a : String) (h : a ∉ st.1) :
    update_step true st a = (st.1 ++ [a], st.2 + 1) := by
  simp [update_step, h]

theorem update_step_rem_mem (st : List String × Nat) (a : String) (h : a ∈ st.1) :
    update_step false st a = (st.1.erase a, st.2 + 1) := by
  simp [update_step, h]

theorem update_step_rem_abs (st : List String × Nat) (a : String) (h : a ∉ st.1) :
    update_step false st a = st := by
  simp [update_step, h]

theorem upd_add_mem_iff :
    ∀ (fs : List String) (st : List String × Nat) (x : String),
      x ∈ (fs.foldl (update_step true) st).1 ↔ x ∈ st.1 ∨ x ∈ fs := by
  intro fs
  induction fs with
  | nil => intro st x; simp
  | cons a fs ih =>
    intro st x
    rw [List.foldl_cons]
    by_cases h : a ∈ st.1
    · rw [update_step_add_mem st a h, ih]
      constructor
      · rintro (hx | hx)
        · exact Or.inl hx
        · exact Or.inr (List.mem_cons_of_mem _ hx)
      · rintro (hx | hx)
        · exact Or.inl hx
        · rcases List.mem_cons.1 hx with rfl | hx2
          · exact Or.inl h
          · exact Or.inr hx2
    · rw [update_step_add_new st a h, ih]
      simp only [List.mem_append, List.mem_singleton, List.mem_cons]
      tauto

theorem upd_add_ext :
    ∀ (fs : List String) (st : List String × Nat),
      ∃ t, (fs.foldl (update_step true) st).1 = st.1 ++ t := by
  intro fs
  induction fs with
  | nil => intro st; exact ⟨[], by simp⟩
  | cons a fs ih =>
    intro st
    rw [List.foldl_cons]
    by_cases h : a ∈ st.1
    · rw [update_step_add_mem st a h]
      exact ih st
    · rw [update_step_add_new st a h]
      obtain ⟨t, ht⟩ := ih (st.1 ++ [a], st.2 + 1)
      exact ⟨[a] ++ t, by rw [ht]; simp⟩

theorem upd_add_count :
    ∀ (fs : List String) (st : List String × Nat),
      (fs.foldl (update_step true) st).1.length + st.2
        = st.1.length + (fs.foldl (update_step true) st).2 := by
  intro fs
  induction fs with
  | nil => intro st; rfl
  | cons a fs ih =>
    intro st
    rw [List.foldl_cons]
    by_cases h : a ∈ st.1
    · rw [update_step_add_mem st a h]
      exact ih st
    · rw [update_step_add_new st a h]
      have h2 := ih (st.1 ++ [a], st.2 + 1)
      simp only [List.length_append, List.length_singleton] at h2 ⊢
      omega

theorem upd_add_id :
    ∀ (fs : List String) (st : List String × Nat),
      (∀ e ∈ fs, e ∈ st.1) → fs.foldl (update_step true) st = st := by
  intro fs
  induction fs with
  | nil => intro st _; rfl
  | cons a fs ih =>
    intro st h
    rw [List.foldl_cons, update_step_add_mem st a (h a (List.mem_cons_self _ _))]
    exact ih st (fun e he => h e (List.mem_cons_of_mem _ he))

theorem upd_rem_id :
    ∀ (fs : List String) (st : List String × Nat),
      (∀ e ∈ fs, e ∉ st.1) → fs.foldl (update_step false) st = st := by
  intro fs
  induction fs with
  | nil => intro st _; rfl
  | cons a fs ih =>
    intro st h
    rw [List.foldl_cons, update_step_rem_abs st a (h a (List.mem_cons_self _ _))]
    exact ih st (fun e he => h e (List.mem_cons_of_mem _ he))

theorem upd_add_nodup :
    ∀ (fs : List String) (st : List String × Nat),
      st.1.Nodup → (fs.foldl (update_step true) st).1.Nodup := by
  intro fs
  induction fs with
  | nil => intro st h; exact h
  | cons a fs ih =>
    intro st hnd
    rw [List.foldl_cons]
    by_cases h : a ∈ st.1
    · rw [update_step_add_mem st a h]
      exact ih st hnd
    · rw [update_step_add_new st a h]
      refine ih _ ?_
      rw [List.nodup_append]
      refine ⟨hnd, List.nodup_singleton a, ?_⟩
      intro x hx hxa
      rw [List.mem_singleton] at hxa
      exact h (hxa ▸ hx)

theorem upd_rem_nodup_mem :
    ∀ (fs : List String) (st : List String × Nat),
      st.1.Nodup →
        (fs.foldl (update_step false) st).1.Nodup
        ∧ ∀ x, x ∈ (fs.foldl (update_step false) st).1 ↔ x ∈ st.1 ∧ x ∉ fs := by
  intro fs
  induction fs with
  | nil => intro st h; exact ⟨h, fun x => by simp⟩
  | cons a fs ih =>
    intro st hnd
    rw [List.foldl_cons]
    by_cases h : a ∈ st.1
    · rw [update_step_rem_mem st a h]
      obtain ⟨n1, m1⟩ := ih (st.1.erase a, st.2 + 1) (hnd.erase a)
      refine ⟨n1, fun x => ?_⟩
      rw [m1 x]
      show x ∈ st.1.erase a ∧ x ∉ fs ↔ _
      rw [hnd.mem_erase_iff]
      simp only [List.mem_cons, not_or]
      tauto
    · rw [update_step_rem_abs st a h]
      obtain ⟨n1, m1⟩ := ih st hnd
      refine ⟨n1, fun x => ?_⟩
      rw [m1 x]
      simp only [List.mem_cons, not_or]
      constructor
      · rintro ⟨hxs, hxf⟩
        exact ⟨hxs, fun e => (e ▸ h) hxs, hxf⟩
      · rintro ⟨hxs, _, hxf⟩
        exact ⟨hxs, hxf⟩

theorem upd_rem_count :
    ∀ (fs : List String) (st : List String × Nat),
      (fs.foldl (update_step false) st).1.length + (fs.foldl (update_step false) st).2
        = st.1.length + st.2 := by
  intro fs
  induction fs with
  | nil => intro st; rfl
  | cons a fs ih =>
    intro st
    rw [List.foldl_cons]
    by_cases h : a ∈ st.1
    · rw [update_step_rem_mem st a h]
      have h2 := ih (st.1.erase a, st.2 + 1)
      have h3 : (st.1.erase a).length = st.1.length - 1 := List.length_erase_of_mem h
      have h4 : 1 ≤ st.1.length := List.length_pos.2 (List.ne_nil_of_mem h)
      simp only at h2 ⊢
      omega
    · rw [update_step_rem_abs st a h]
      exact ih st

/-- C3: `update_ignored` flattens comma-joined tokens; adding appends every
extension not already present and leaves present ones untouched; removing
deletes every present extension and ignores absent ones without error; the
reported count is the number of extensions actually changed; and the spec's
concrete example behaves exactly as stated. -/
theorem update_ignored_spec :
    update_ignored ["py"] ["rtf,pdf", "jpeg"] true = (["py", "rtf", "pdf", "jpeg"], 3)
    ∧ (∀ ign exts, (∀ e ∈ flatten_extensions exts, e ∈ ign) →
        update_ignored ign exts true = (ign, 0))
    ∧ (∀ ign exts, (∀ e ∈ flatten_extensions exts, e ∉ ign) →
        update_ignored ign exts false = (ign, 0))
    ∧ (∀ ign exts x,
        x ∈ (update_ignored ign exts true).1 ↔ x ∈ ign ∨ x ∈ flatten_extensions exts)
    ∧ (∀ ign exts, ∃ t, (update_ignored ign exts true).1 = ign ++ t)
    ∧ (∀ ign exts, (update_ignored ign exts true).1.length
        = ign.length + (update_ignored ign exts true).2)
    ∧ (∀ ign exts, ign.Nodup → ∀ x,
        x ∈ (update_ignored ign exts false).1 ↔ x ∈ ign ∧ x ∉ flatten_extensions exts)
    ∧ (∀ ign exts,
        (update_ignored ign exts false).1.length + (update_ignored ign exts false).2
          = ign.length) := by
  refine ⟨by decide, ?_, ?_, ?_, ?_, ?_, ?_, ?_⟩
  · intro ign exts h
    exact upd_add_id _ _ h
  · intro ign exts h
    exact upd_rem_id _ _ h
  · intro ign exts x
    exact upd_add_mem_iff _ _ x
  · intro ign exts
    exact upd_add_ext _ _
  · intro ign exts
    have h2 := upd_add_count (flatten_extensions exts) (ign, 0)
    simpa [update_ignored] using h2
  · intro ign exts h x
    exact (upd_rem_nodup_mem _ (ign, 0) h).2 x
  · intro ign exts
    have h2 := upd_rem_count (flatten_extensions exts) (ign, 0)
    simpa [update_ignored] using h2

theorem update_ignored_spec_witness :
    update_ignored ["py"] ["py"] true = (["py"], 0)
    ∧ update_ignored ["py"] ["rtf,pdf", "jpeg"] true = (["py", "rtf", "pdf", "jpeg"], 3) :=
  ⟨update_ignored_spec.2.1 ["py"] ["py"] (by decide), update_ignored_spec.1⟩

/-- C10: the built-in default set contains each extension at most once, and
`update_ignored` preserves that uniqueness invariant for every input list,
both when adding and when removing. -/
theorem extension_set_nodup :
    ignored_default.Nodup
    ∧ ∀ ign exts add, ign.Nodup → (update_ignored ign exts add).1.Nodup := by
  constructor
  · decide
  · intro ign exts add h
    cases add
    · exact (upd_rem_nodup_mem _ (ign, 0) h).1
    · exact upd_add_nodup _ (ign, 0) h

theorem extension_set_nodup_witness :
    (update_ignored ["py"] ["py,md"] true).1.Nodup :=
  extension_set_nodup.2 ["py"] ["py,md"] true (by decide)

theorem write_prefs_data_aux (l : List String) :
    ∀ acc : String,
      (l.foldl (fun acc s => acc ++ s ++ "\n") acc).data
        = acc.data ++ (l.map (fun s => s.data ++ ['\n'])).flatten := by
  induction l with
  | nil => intro acc; simp
  | cons s t ih =>
    intro acc
    simp only [List.foldl_cons, List.map_cons, List.flatten_cons]
    rw [ih]
    simp [String.data_append]

theorem write_prefs_data (l : List String) :
    (write_prefs l).data = (l.map (fun s => s.data ++ ['\n'])).flatten := by
  have h := write_prefs_data_aux l ""
  simpa [write_prefs] using h

theorem file_lines_cons_line (s : List Char) (rest : List Char) (h : '\n' ∉ s) :
    file_lines (s ++ '\n' :: rest) = s :: file_lines rest := by
  induction s with
  | nil =>
    show file_lines ('\n' :: rest) = [] :: file_lines rest
    rw [show file_lines ('\n' :: rest)
        = (if '\n' = '\n' then [] :: file_lines rest
           else if (file_lines rest).isEmpty then [['\n']]
             else ('\n' :: (file_lines rest).headI) :: (file_lines rest).tail) from rfl]
    rw [if_pos rfl]
  | cons c cs ih =>
    have hc : c ≠ '\n' := fun e => h (e ▸ List.mem_cons_self c cs)
    have h2 : '\n' ∉ cs := fun m => h (List.mem_cons_of_mem _ m)
    show file_lines (c :: (cs ++ '\n' :: rest)) = (c :: cs) :: file_lines rest
    rw [show file_lines (c :: (cs ++ '\n' :: rest))
        = (if c = '\n' then [] :: file_lines (cs ++ '\n' :: rest)
           else if (file_lines (cs ++ '\n' :: rest)).isEmpty then [[c]]
             else (c :: (file_lines (cs ++ '\n' :: rest)).headI)
               :: (file_lines (cs ++ '\n' :: rest)).tail) from rfl]
    rw [if_neg hc, ih h2]
    rfl

theorem file_lines_write_prefs (l : List String) (h : ∀ s ∈ l, '\n' ∉ s.data) :
    file_lines ((l.map (fun s => s.data ++ ['\n'])).flatten) = l.map String.data := by
  induction l with
  | nil => rfl
  | cons s t ih =>
    simp only [List.map_cons, List.flatten_cons]
    have h1 : '\n' ∉ s.data := h s (List.mem_cons_self _ _)
    have h2 : ∀ x ∈ t, '\n' ∉ x.data := fun x hx => h x (List.mem_cons_of_mem _ hx)
    rw [List.append_assoc, List.singleton_append, file_lines_cons_line s.data _ h1, ih h2]

theorem map_mk_rstrip (l : List String) (h : ∀ s ∈ l, rstrip s.data = s.data) :
    (l.map String.data).map (fun line => String.mk (rstrip line)) = l := by
  induction l with
  | nil => rfl
  | cons s t ih =>
    simp only [List.map_cons]
    rw [h s (List.mem_cons_self _ _)]
    have hmk : String.mk s.data = s := by cases s; rfl
    rw [hmk, ih (fun x hx => h x (List.mem_cons_of_mem _ hx))]

theorem read_write_roundtrip (l : List String)
    (h : ∀ s ∈ l, '\n' ∉ s.data ∧ rstrip s.data = s.data) :
    read_prefs (write_prefs l) = l := by
  unfold read_prefs
  rw [write_prefs_data, file_lines_write_prefs l (fun s hs => (h s hs).1)]
  exact map_mk_rstrip l (fun s hs => (h s hs).2)

/-- C4: after any add or remove mutation the preference file is deleted and
regenerated, one extension per line, from the updated in-memory list;
reloading the store from that file yields exactly the mutated list; and in
general save-then-load is the identity on every list of extension strings
with no newline and no trailing whitespace. -/
theorem prefs_roundtrip_spec :
    (∀ l : List String, (∀ s ∈ l, pref_wf s) → read_prefs (write_prefs l) = l)
    ∧ (∀ mem exts add,
        (update_ignored_save mem exts add).2 = write_prefs (update_ignored mem exts add).1)
    ∧ (∀ mem exts add,
        (∀ s ∈ (update_ignored mem exts add).1, pref_wf s) →
        ∀ d, (check_prefs (some (update_ignored_save mem exts add).2) d).1
              = (update_ignored mem exts add).1) := by
  have rt : ∀ l : List String, (∀ s ∈ l, pref_wf s) → read_prefs (write_prefs l) = l := by
    intro l h
    exact read_write_roundtrip l (fun s hs => ⟨(h s hs).2.1, (h s hs).2.2⟩)
  refine ⟨rt, fun mem exts add => rfl, ?_⟩
  intro mem exts add h d
  show read_prefs (write_prefs (update_ignored mem exts add).1)
      = (update_ignored mem exts add).1
  exact rt _ h

theorem prefs_roundtrip_spec_witness :
    read_prefs (write_prefs ["py", "rtf"]) = ["py", "rtf"] :=
  prefs_roundtrip_spec.1 ["py", "rtf"] (by decide)

/-- C5: on load, an absent preference file is created containing exactly the
built-in default set `{pxm, py, txt, text, html, md, markdown}` and that set
is persisted; a present file replaces the in-memory list entirely with the
file's contents, independently of the in-memory default (no merge). -/
theorem check_prefs_spec :
    check_prefs none ignored_default = (ignored_default, write_prefs ignored_default)
    ∧ read_prefs (write_prefs ignored_default) = ignored_default
    ∧ ignored_default = ["pxm", "py", "txt", "text", "html", "md", "markdown"]
    ∧ (∀ contents mem, check_prefs (some contents) mem = (read_prefs contents, contents))
    ∧ (∀ contents m₁ m₂,
        (check_prefs (some contents) m₁).1 = (check_prefs (some contents) m₂).1) := by
  refine ⟨rfl, by decide, rfl, fun contents mem => rfl, fun contents m₁ m₂ => rfl⟩

theorem parse_loop_processed :
    ∀ (rem : List String) (gn : Bool) (ca : String) (vb : Bool)
      (ad rm pr : List String) (v : Bool) (a r p : List String),
      parse_loop rem gn ca vb ad rm pr = .proceed v a r p →
      ∀ t ∈ p, t ∈ pr ∨ t ∈ rem ∨ t = "?" := by
  intro rem
  induction rem with
  | nil =>
    intro gn ca vb ad rm pr v a r p h t ht
    cases gn
    · simp only [parse_loop, Bool.false_eq_true, if_false, ParseOutcome.proceed.injEq] at h
      rcases h with ⟨-, -, -, h4⟩
      subst h4
      exact Or.inl ht
    · simp [parse_loop] at h
  | cons x rest ih =>
    intro gn ca vb ad rm pr v a r p h t ht
    simp only [parse_loop] at h
    split_ifs at h
    all_goals
      rcases ih _ _ _ _ _ _ _ _ _ _ h t ht with hmem | hmem | hmem
      · rcases List.mem_append.1 hmem with hp | hq
        · exact Or.inl hp
        · rw [List.mem_singleton] at hq
          subst hq
          first
            | exact Or.inr (Or.inr rfl)
            | exact Or.inr (Or.inl (List.mem_cons_self _ _))
      · exact Or.inr (Or.inl (List.mem_cons_of_mem _ hmem))
      · exact Or.inr (Or.inr hmem)

/-- C9 counterexample: the token `?foo` is never consumed as an option or
as an option parameter (the loop proceeds, consuming nothing), yet it is
not passed to the Byte Encoder and the working directory is scanned
instead: the file-collection pass at hex.py line 382 drops every token
whose first character is `?`, because that character doubles as the
in-place consumption marker. -/
theorem question_token_dropped_counterexample :
    parse_loop ["?foo"] false "" false [] [] [] = .proceed false [] [] ["?foo"]
    ∧ (main_model ["?foo"] none).files = []
    ∧ (main_model ["?foo"] none).scanDir = true := by
  refine ⟨by decide, by decide, by decide⟩

/-- C9 (amended): whenever the option loop completes, every remaining token
of the scanned argument vector whose first character is neither `-` nor the
`?` consumption marker is treated as an explicit file path (so an original
argument that itself begins with `?` is silently dropped); each such path
is one of the original command-line tokens; and the working directory is
scanned exactly when no such token remains.  An empty-string argument never
reaches file collection: the option scan aborts on it with an uncaught
`IndexError`.  The concrete runs show an option parameter being consumed
and the no-files fallback. -/
theorem main_files_spec :
    (∀ (args : List String) (disk : Option String) (v : Bool) (a r p : List String),
      parse_loop args false "" false [] [] [] = .proceed v a r p →
        (main_model args disk).files
            = p.filter (fun t => t.front != '-' && t.front != '?')
        ∧ (main_model args disk).scanDir = (main_model args disk).files.isEmpty
        ∧ ∀ t ∈ (main_model args disk).files, t ∈ args)
    ∧ (main_model ["-v", "-a", "png", "f1.bin", "f2.bin"] none).files = ["f1.bin", "f2.bin"]
    ∧ (main_model ["-v", "-a", "png", "f1.bin", "f2.bin"] none).scanDir = false
    ∧ (main_model ["-v"] none).files = []
    ∧ (main_model ["-v"] none).scanDir = true
    ∧ (main_model [""] none).raised = true
    ∧ (main_model [""] none).files = [] := by
  refine ⟨?_, by decide, by decide, by decide, by decide, by decide, by decide⟩
  intro args disk v a r p h
  cases args with
  | nil =>
    have h2 : p = [] := by
      simp only [parse_loop, Bool.false_eq_true, if_false, ParseOutcome.proceed.injEq] at h
      exact h.2.2.2.symm
    subst h2
    exact ⟨by simp [main_model], by simp [main_model], by simp [main_model]⟩
  | cons x rest =>
    have hf : (main_model (x :: rest) disk).files
        = p.filter (fun t => t.front != '-' && t.front != '?') := by
      simp only [main_model]
      rw [h]
    have hsc : (main_model (x :: rest) disk).scanDir
        = (main_model (x :: rest) disk).files.isEmpty := by
      simp only [main_model]
      rw [h]
    refine ⟨hf, hsc, ?_⟩
    intro t ht
    rw [hf] at ht
    have hp := List.mem_filter.1 ht
    rcases parse_loop_processed (x :: rest) false "" false [] [] [] v a r p h t hp.1 with
      h1 | h2 | h3
    · cases h1
    · exact h2
    · exfalso
      have hpred := hp.2
      rw [h3] at hpred
      exact absurd hpred (by decide)

theorem main_files_spec_witness :
    (main_model ["f.bin"] none).files = ["f.bin"] := by
  have h := (main_files_spec.1 ["f.bin"] none false [] [] ["f.bin"] (by decide)).1
  rw [h]
  decide

/-- C8 (amended): when `-h`/`--help` is reached during option scanning the
program exits with code 0 immediately: the preference file is untouched, no
files are processed, no directory scan happens, and the help text renders
the built-in default ignored list (the preference store is never loaded on
this path).  A leading `-h` or `--help` always triggers this exit. -/
theorem help_exit_spec :
    (∀ (args : List String) (disk : Option String),
      parse_loop args false "" false [] [] [] = .helpExit →
        (main_model args disk).exitCode = 0
        ∧ (main_model args disk).helpList = some ignored_default
        ∧ (main_model args disk).disk = disk
        ∧ (main_model args disk).files = []
        ∧ (main_model args disk).scanDir = false)
    ∧ (∀ rest : List String, parse_loop ("-h" :: rest) false "" false [] [] [] = .helpExit)
    ∧ (∀ rest : List String,
        parse_loop ("--help" :: rest) false "" false [] [] [] = .helpExit) := by
  refine ⟨?_, ?_, ?_⟩
  · intro args disk h
    cases args with
    | nil => simp [parse_loop] at h
    | cons x rest =>
      refine ⟨?_, ?_, ?_, ?_, ?_⟩ <;> simp only [main_model] <;> rw [h]
  · intro rest
    simp [parse_loop]
  · intro rest
    simp [parse_loop]

theorem help_exit_spec_witness :
    (main_model ["-h"] none).exitCode = 0
    ∧ (main_model ["-h"] none).helpList = some ignored_default :=
  ⟨(help_exit_spec.1 ["-h"] none (help_exit_spec.2.1 [])).1,
   (help_exit_spec.1 ["-h"] none (help_exit_spec.2.1 [])).2.1⟩

theorem help_ignores_store_counterexample :
    (main_model ["-h"] (some (write_prefs ["nut"]))).exitCode = 0
    ∧ (main_model ["-h"] (some (write_prefs ["nut"]))).helpList = some ignored_default
    ∧ (check_prefs (some (write_prefs ["nut"])) ignored_default).1 = ["nut"]
    ∧ ignored_default ≠ ["nut"] := by
  refine ⟨by decide, by decide, by decide, by decide⟩

end HexPy
